import Mathlib

/-!
Shallow embedding of `mkvmux.py` (Movie-Cover repository) and proofs about its
poster-resolution and container-mutation pipeline.

Paths are modelled as lists of characters; the Python string manipulations
(`replace`, `split`, `join`, `os.path.dirname`, `os.path.join`, slicing) are
translated into executable list functions below.  The filesystem is a map from
(normalized) paths to files; external collaborators (HTTP transport, the Google
image-search object, the mkvmerge render step) are oracles passed as arguments.
-/

namespace MovieCover

/-! ### String / path primitives (translations of the Python string operations) -/

/-- Python `s.split(c)`: split at every occurrence of `c`, keeping empty parts.
The result is always non-empty. -/
def splitOnChar (c : Char) : List Char → List (List Char)
  | [] => [[]]
  | x :: xs =>
    match splitOnChar c xs with
    | [] => [[x]]
    | y :: ys => if x = c then [] :: y :: ys else (x :: y) :: ys

/-- Python `c.join(parts)`. -/
def joinWith (c : Char) : List (List Char) → List Char
  | [] => []
  | [x] => x
  | x :: y :: ys => x ++ c :: joinWith c (y :: ys)

/-- Python `s.replace('\\', '/')` — path-separator normalization applied by the
source before splitting file names.  The filesystem model is keyed by
normalized paths. -/
def normPath (p : List Char) : List Char :=
  p.map (fun ch => if ch = '\\' then '/' else ch)

/-- Python `s.split('/')[-1]`. -/
def lastPart (q : List Char) : List Char :=
  (splitOnChar '/' q).getLastD []

/-- Python `'.'.join(s.split('.')[:-1])` — the file name with its last
extension removed. -/
def stem (s : List Char) : List Char :=
  joinWith '.' ((splitOnChar '.' s).dropLast)

/-- Python `s.endswith(t)`. -/
def endsWithL (s t : List Char) : Bool :=
  decide (s.reverse.take t.length = t.reverse)

/-- Python `s.startswith(t)` on lists (helper for substring search). -/
def startsWithL : List Char → List Char → Bool
  | _, [] => true
  | [], _ :: _ => false
  | c :: s, p :: ps => if c = p then startsWithL s ps else false

/-- Python `t in s` (substring containment). -/
def hasSubstr (s t : List Char) : Bool :=
  match s with
  | [] => startsWithL [] t
  | _ :: s' => startsWithL s t || hasSubstr s' t

/-- Strip trailing `'/'` characters. -/
def rstripSlash (d : List Char) : List Char :=
  (d.reverse.dropWhile (fun c => c = '/')).reverse

/-- Everything up to and including the last `'/'` of `q` (empty if none). -/
def preSlash (q : List Char) : List Char :=
  (q.reverse.dropWhile (fun c => c ≠ '/')).reverse

/-- Python `os.path.dirname` on a separator-normalized path: keep everything
before the last `'/'`, stripping trailing separators unless the head is all
separators. -/
def dirname (q : List Char) : List Char :=
  if (preSlash q).all (fun c => c = '/') then preSlash q
  else rstripSlash (preSlash q)

/-- Python `os.path.join(d, b)` for a relative `b`, producing a
separator-normalized path. -/
def pyJoin (d b : List Char) : List Char :=
  if d = [] then b
  else if d.getLastD ' ' = '/' then d ++ b
  else d ++ '/' :: b

/-! ### Filesystem model -/

/-- A file on disk.  `bytes` is an opaque content identity; container files
additionally carry their track list, attachment names and title metadata. -/
structure File where
  bytes : Nat
  tracks : List Nat
  attachments : List String
  title : List Char
  writable : Bool
deriving DecidableEq

/-- The filesystem: files keyed by normalized path, plus a directory-existence
predicate (used only by the poster-cache directory creation). -/
structure FS where
  files : List Char → Option File
  dirs : List Char → Bool

/-- A plain downloaded blob (poster image) with content identity `b`. -/
def blobFile (b : Nat) : File :=
  ⟨b, [], [], [], true⟩

/-! ### NameParser — `get_movie_name_and_year` (mkvmux.py lines 187-221) -/

/-- Does the regex `\(\d{4}\)` match at the head of `l`?  (`\d` modelled as an
ASCII digit.) -/
def matchParenAt (l : List Char) : Bool :=
  match l with
  | c0 :: c1 :: c2 :: c3 :: c4 :: c5 :: _ =>
    c0 == '(' && c1.isDigit && c2.isDigit && c3.isDigit && c4.isDigit && c5 == ')'
  | _ => false

/-- Does the regex `\d{4}` match at the head of `l`? -/
def matchFourAt (l : List Char) : Bool :=
  match l with
  | c0 :: c1 :: c2 :: c3 :: _ =>
    c0.isDigit && c1.isDigit && c2.isDigit && c3.isDigit
  | _ => false

/-- `re.search`: index of the leftmost position at which `p` matches, starting
the count at `i`. -/
def findMatchFrom (p : List Char → Bool) : Nat → List Char → Option Nat
  | i, [] => if p [] then some i else none
  | i, c :: rest => if p (c :: rest) then some i else findMatchFrom p (i + 1) rest

/-- `string.punctuation` with `'-'` removed (mkvmux.py line 216). -/
def punctNoHyphen : List Char :=
  "!\x22#$%&\x27()*+,./:;<=>?@[\\]^_\x60\x7b|\x7d~".data

/-- Split at characters satisfying `p`, keeping empty parts. -/
def splitOnP (p : Char → Bool) : List Char → List (List Char)
  | [] => [[]]
  | x :: xs =>
    match splitOnP p xs with
    | [] => [[x]]
    | y :: ys => if p x then [] :: y :: ys else (x :: y) :: ys

/-- Python `' '.join(s.split())`: collapse whitespace runs and trim. -/
def collapseWs (s : List Char) : List Char :=
  joinWith ' ' ((splitOnP (fun c => c.isWhitespace) s).filter (fun w => !w.isEmpty))

/-- Title normalization (mkvmux.py lines 215-218): dots to spaces, strip
punctuation except hyphen, hyphens to spaces, collapse whitespace. -/
def normalizeTitle (t : List Char) : List Char :=
  collapseWs
    (((t.map (fun c => if c = '.' then ' ' else c)).filter
        (fun c => !(punctNoHyphen.contains c))).map
      (fun c => if c = '-' then ' ' else c))

/-- `get_movie_name_and_year` (mkvmux.py lines 187-221).  Note the Python
source tests `if year_start_idx:`, which is false both for `None` and for the
integer `0`. -/
def get_movie_name_and_year (movie_file : List Char) :
    Except Unit (List Char × List Char) :=
  let file_name := lastPart (normPath movie_file)
  match findMatchFrom matchParenAt 0 file_name with
  | some i =>
    .ok (normalizeTitle (file_name.take (i + 1)), (file_name.drop (i + 1)).take 4)
  | none =>
    match findMatchFrom matchFourAt 0 file_name with
    | some i =>
      if i = 0 then .error ()
      else .ok (normalizeTitle (file_name.take i), (file_name.drop i).take 4)
    | none => .error ()

/-! ### PosterCache — naming convention and cache lookup (mkvmux.py 25-26, 44-59, 159-184) -/

/-- `POSTER_DIR` (mkvmux.py line 25).  `os.path.dirname(__file__)` is modelled
as the empty script directory, so cache paths are relative to it. -/
def POSTER_DIR : List Char := "movie_posters".data

/-- `get_poster_filename` (mkvmux.py 44-59): `{name}-{year}.{ext}` with spaces
in the name replaced by hyphens. -/
def get_poster_filename (name year ext : List Char) : List Char :=
  (name.map (fun c => if c = ' ' then '-' else c)) ++ '-' :: year ++ '.' :: ext

/-- Full cache path of the canonical poster file for a key. -/
def cachePathOf (n y e : List Char) : List Char :=
  pyJoin POSTER_DIR (get_poster_filename n y e)

/-- The cache scan of `get_movie_cover` (mkvmux.py 171-179): first extension in
the fixed priority order jpg, png, jpeg whose canonical file exists. -/
def findCachedPoster (fs : FS) (n y : List Char) : Option (List Char) :=
  [cachePathOf n y "jpg".data, cachePathOf n y "png".data,
   cachePathOf n y "jpeg".data].find? (fun p => (fs.files p).isSome)

/-- `os.mkdir(POSTER_DIR)` guarded by `os.path.isdir` (mkvmux.py 169-170). -/
def mkdirPoster (fs : FS) : FS :=
  if fs.dirs POSTER_DIR then fs
  else { fs with dirs := fun d => if d = POSTER_DIR then true else fs.dirs d }

/-! ### PosterProviderChain (mkvmux.py 31-41, 62-156)

External collaborators are oracles:
`http : url → Except Unit (status, content)` models `requests.get`, whose
transport failures raise (modelled as `.error`) while non-success statuses
return normally; `searchO` models `GIS.search`; `imgO` models
`Image.open(urlopen url)` yielding width, height and content. -/

/-- Failures that can escape the provider chain. -/
inductive DlErr where
  | transport
  | index
  | exhausted
deriving DecidableEq

/-- The result list held by the module-global `GIS` object (mkvmux.py 28). -/
abbrev GisState := List (List Char)

/-- The dvdsreleasedates URL scheme (mkvmux.py line 73). -/
def dvdUrlFor (letter tail : List Char) : List Char :=
  "https://www.dvdsreleasedates.com/posters/800/".data ++ letter ++ '/' ::
    (tail ++ "-movie-poster.jpg".data)

/-- `download_poster_from_dvdreleasedates` (mkvmux.py 62-88).  A raised
transport error from `requests.get` is NOT caught here and propagates as
`.error`; a non-200 status falls back to the title-only URL.  `movie_name[0]`
raises IndexError on an empty title.  Lines 76-77 (`' '.join(split())` after
hyphenation and `'-'.join(split('-'))`) are identities and are not repeated
here. -/
def download_poster_from_dvdreleasedates (http : List Char → Except Unit (Nat × Nat))
    (fs : FS) (n y : List Char) : FS × Except DlErr (Option (List Char)) :=
  match n with
  | [] => (fs, .error .index)
  | c :: _ =>
    let letter := if c.isDigit then "0".data else [c]
    let n' := n.map (fun ch => if ch = ' ' then '-' else ch)
    match http (dvdUrlFor letter (n' ++ '-' :: y)) with
    | .error _ => (fs, .error .transport)
    | .ok (code, content) =>
      if code = 200 then
        let p := cachePathOf n' y "jpg".data
        ({ fs with files := fun q => if q = p then some (blobFile content) else fs.files q },
         .ok (some p))
      else
        match http (dvdUrlFor letter n') with
        | .error _ => (fs, .error .transport)
        | .ok (code2, content2) =>
          if code2 = 200 then
            let p := cachePathOf n' y "jpg".data
            ({ fs with files := fun q => if q = p then some (blobFile content2) else fs.files q },
             .ok (some p))
          else (fs, .ok none)

/-- The five search-query templates (mkvmux.py 102-108), instantiated. -/
def searchQueries (n y : List Char) : List (List Char) :=
  [n ++ ' ' :: y ++ " movie hd poster".data,
   n ++ ' ' :: y ++ " cover hd poster".data,
   n ++ ' ' :: y ++ " hd poster".data,
   n ++ ' ' :: y ++ " poster".data,
   n ++ ' ' :: y ++ " cover".data]

/-- The query loop of `download_poster_from_google_api` (mkvmux.py 114-120):
try each query in order, breaking at the first `GIS.search` that does not
raise; a successful search replaces the global result list, failed searches
leave it unchanged. -/
def runSearches (searchO : List Char → Except Unit (List (List Char)))
    (gis : GisState) : List (List Char) → GisState
  | [] => gis
  | q :: rest =>
    match searchO q with
    | .ok rs => rs
    | .error _ => runSearches searchO gis rest

/-- The result loop of `download_poster_from_google_api` (mkvmux.py 121-131):
skip results that fail to decode, accept the first image with `h > 1.4*w` and
`h >= 900` (the threshold 1.4 is modelled as the rational 14/10). -/
def findPortrait (imgO : List Char → Except Unit (Nat × Nat × Nat)) :
    List (List Char) → Option (Nat × Nat × Nat)
  | [] => none
  | u :: rest =>
    match imgO u with
    | .error _ => findPortrait imgO rest
    | .ok (w, h, b) =>
      if 10 * h > 14 * w && h ≥ 900 then some (w, h, b) else findPortrait imgO rest

/-- `download_poster_from_google_api` (mkvmux.py 91-131).  All per-query and
per-result failures are swallowed; the function never raises.  `GIS.results()`
reads whatever the global search state holds after the query loop. -/
def download_poster_from_google_api (searchO : List Char → Except Unit (List (List Char)))
    (imgO : List Char → Except Unit (Nat × Nat × Nat)) (gis : GisState) (fs : FS)
    (n y : List Char) : GisState × FS × Option (List Char) :=
  let gis' := runSearches searchO gis (searchQueries n y)
  match findPortrait imgO gis' with
  | some (_, _, b) =>
    let p := cachePathOf n y "jpg".data
    (gis', { fs with files := fun q => if q = p then some (blobFile b) else fs.files q },
     some p)
  | none => (gis', fs, none)

/-- `download_poster` (mkvmux.py 134-156): the ordered provider chain.  A
`None` from a provider means "try the next"; exhaustion raises
`NotImplementedError` (modelled `.exhausted`); an exception raised inside a
provider propagates. -/
def download_poster (http : List Char → Except Unit (Nat × Nat))
    (searchO : List Char → Except Unit (List (List Char)))
    (imgO : List Char → Except Unit (Nat × Nat × Nat)) (gis : GisState) (fs : FS)
    (n y : List Char) : GisState × FS × Except DlErr (List Char) :=
  match download_poster_from_dvdreleasedates http fs n y with
  | (fs1, .error e) => (gis, fs1, .error e)
  | (fs1, .ok (some p)) => (gis, fs1, .ok p)
  | (fs1, .ok none) =>
    match download_poster_from_google_api searchO imgO gis fs1 n y with
    | (gis1, fs2, some p) => (gis1, fs2, .ok p)
    | (gis1, fs2, none) => (gis1, fs2, .error .exhausted)

/-- `get_movie_cover` (mkvmux.py 159-184): create the cache directory if
needed, return the first cached poster in extension priority order, else
delegate to the provider chain. -/
def get_movie_cover (http : List Char → Except Unit (Nat × Nat))
    (searchO : List Char → Except Unit (List (List Char)))
    (imgO : List Char → Except Unit (Nat × Nat × Nat)) (gis : GisState) (fs : FS)
    (n y : List Char) : GisState × FS × Except DlErr (List Char) :=
  let fs0 := mkdirPoster fs
  match findCachedPoster fs0 n y with
  | some p => (gis, fs0, .ok p)
  | none => download_poster http searchO imgO gis fs0 n y

/-! ### ContainerMutator — `mux_movie` (mkvmux.py 241-271) -/

/-- The temporary sibling path `temp_{stem}.mkv` the container is rendered to
(mkvmux.py 251-252). -/
def tempPathOf (mf : List Char) : List Char :=
  pyJoin (dirname (normPath mf))
    ("temp_".data ++ stem (lastPart (normPath mf)) ++ ".mkv".data)

/-- The destination path `{stem}.mkv` the rendered file is renamed to
(mkvmux.py line 271). -/
def finalPathOf (mf : List Char) : List Char :=
  pyJoin (dirname (normPath mf)) (stem (lastPart (normPath mf)) ++ ".mkv".data)

/-- `mux_movie` (mkvmux.py 241-271).

External behaviour is parameterized: `numTracks` is the number of demuxable
tracks the probe loop (lines 257-263) finds for a non-mkv source; `renderOk`
is whether the external `mkvmerge` render (line 268) succeeds; on a failed
render the temporary sibling path is left holding `junk` (anything the failed
external tool may have produced there), and the exception aborts the function
before the chmod/remove/rename steps.  Loading a missing mkv source
(`MKVFile`, line 254) and attaching a missing cover (`MKVAttachment`,
line 265) raise before anything is written.  Returns the filesystem together
with a success flag. -/
def muxLoad (numTracks : Nat) (fs : FS) (movie_file : List Char) :
    Option (Nat × List Nat) :=
  if endsWithL movie_file ".mkv".data then
    (fs.files (normPath movie_file)).map (fun f => (f.bytes, f.tracks))
  else some (0, List.range numTracks)

/-- The fully rendered replacement container: the source layout plus exactly
the canonical cover attachment and the stem as title (mkvmux.py 264-268). -/
def muxRendered (sb : Nat) (tracks : List Nat) (coverBy : Nat) (movie_file : List Char) :
    File :=
  ⟨Nat.pair sb coverBy, tracks, ["cover.jpg"], stem (lastPart (normPath movie_file)), true⟩

/-- Steps 4-5 of the mutation once the render succeeded: the rendered file is
at the temporary path; make the source writable, delete it, rename the
temporary file onto the final path (mkvmux.py 268-271). -/
def muxCommit (fs : FS) (q tempP finalP : List Char) (rendered srcF : File) : FS :=
  let fs1 : FS :=
    { fs with files := fun p => if p = tempP then some rendered else fs.files p }
  let fs2 : FS :=
    { fs1 with files := fun p =>
        if p = q then some { srcF with writable := true } else fs1.files p }
  let fs3 : FS :=
    { fs2 with files := fun p => if p = q then none else fs2.files p }
  { fs3 with files := fun p =>
      if p = finalP then fs3.files tempP
      else if p = tempP then none
      else fs3.files p }

def mux_movie (numTracks : Nat) (renderOk : Bool) (junk : Option File) (fs : FS)
    (movie_file cover_file : List Char) : FS × Bool :=
  match muxLoad numTracks fs movie_file with
  | none => (fs, false)
  | some (sb, tracks) =>
    match fs.files (normPath cover_file) with
    | none => (fs, false)
    | some coverF =>
      if renderOk then
        let rendered := muxRendered sb tracks coverF.bytes movie_file
        match (if normPath movie_file = tempPathOf movie_file then some rendered
               else fs.files (normPath movie_file)) with
        | none =>
          ({ fs with files := fun p =>
              if p = tempPathOf movie_file then some rendered else fs.files p },
           false)
        | some srcF =>
          (muxCommit fs (normPath movie_file) (tempPathOf movie_file)
            (finalPathOf movie_file) rendered srcF, true)
      else
        ({ fs with files := fun p =>
            if p = tempPathOf movie_file then junk else fs.files p },
         false)

/-! ### UpdateOrchestrator (mkvmux.py 224-238, 274-306) -/

/-- `movie_poster_added` (mkvmux.py 224-238): the external
`mkvmerge --identify` probe, which reports whether an attachment named
`cover.jpg` is present; it raises (`none`) when the file cannot be read. -/
def movie_poster_added (fs : FS) (path : List Char) : Option Bool :=
  (fs.files (normPath path)).map (fun f => decide ("cover.jpg" ∈ f.attachments))

/-- Per-file outcome of `update_file` (see spec section 4.6). -/
inductive Outcome where
  | Skipped
  | Updated
  | Failed
deriving DecidableEq

/-- `update_movie_cover` (mkvmux.py 274-284) with `cover_file=None`: re-derive
the key from the full path, resolve the cover, then mux.  Any raised error
yields `false` (it is caught by `update_file`). -/
def update_movie_cover (numTracks : Nat) (renderOk : Bool) (junk : Option File)
    (http : List Char → Except Unit (Nat × Nat))
    (searchO : List Char → Except Unit (List (List Char)))
    (imgO : List Char → Except Unit (Nat × Nat × Nat)) (gis : GisState) (fs : FS)
    (movie_file : List Char) : GisState × FS × Bool :=
  match get_movie_name_and_year movie_file with
  | .error _ => (gis, fs, false)
  | .ok (n, y) =>
    match get_movie_cover http searchO imgO gis fs n y with
    | (gis1, fs1, .error _) => (gis1, fs1, false)
    | (gis1, fs1, .ok cover) =>
      match mux_movie numTracks renderOk junk fs1 movie_file cover with
      | (fs2, ok) => (gis1, fs2, ok)

/-- `update_file` (mkvmux.py 287-306): parse the file name, probe for an
existing cover, then either skip or update; every exception is caught and
logged, producing the `Failed` outcome. -/
def update_file (numTracks : Nat) (renderOk : Bool) (junk : Option File)
    (http : List Char → Except Unit (Nat × Nat))
    (searchO : List Char → Except Unit (List (List Char)))
    (imgO : List Char → Except Unit (Nat × Nat × Nat)) (gis : GisState) (fs : FS)
    (directory file : List Char) (force : Bool) : GisState × FS × Outcome :=
  match get_movie_name_and_year file with
  | .error _ => (gis, fs, .Failed)
  | .ok _ =>
    let movie_file := pyJoin directory file
    match movie_poster_added fs movie_file with
    | none => (gis, fs, .Failed)
    | some added =>
      if !added || force then
        match update_movie_cover numTracks renderOk junk http searchO imgO gis fs movie_file with
        | (gis1, fs1, ok) => (gis1, fs1, if ok then .Updated else .Failed)
      else (gis, fs, .Skipped)

/-! ### Directory traversal — `traverse_movies_directory` (mkvmux.py 27, 309-328) -/

/-- A directory tree as seen by `os.listdir`. -/
inductive DirTree where
  | file (name : List Char)
  | dir (name : List Char) (entries : List DirTree)

/-- Name of a directory entry. -/
def DirTree.nameOf : DirTree → List Char
  | .file n => n
  | .dir n _ => n

/-- The traversal filter (mkvmux.py line 326): the entry name must end with
one of the literal suffixes in `VALID_VIDEO_FORMAT = ['mkv', 'mp4', 'avi']`
(note: `str.endswith`, not an extension check) and must not contain
`'sample'` case-insensitively. -/
def validName (n : List Char) : Bool :=
  (endsWithL n "mkv".data || endsWithL n "mp4".data || endsWithL n "avi".data)
  && !hasSubstr (n.map Char.toLower) "sample".data

/-- `traverse_movies_directory` (mkvmux.py 309-328), abstracted to the list of
`update_file(directory, name)` calls it performs: for each listed entry,
recurse first if it is a directory (there is no `elif`, so directory entries
are then also tested against the filter), then call `update_file` if the
filter passes. -/
def traverseCalls : List Char → List DirTree → List (List Char × List Char)
  | _, [] => []
  | d, e :: rest =>
    (match e with
     | .dir nm sub => traverseCalls (d ++ '/' :: nm) sub
     | .file _ => []) ++
    (if validName e.nameOf then [(d, e.nameOf)] else []) ++
    traverseCalls d rest

/-- Every entry the traversal lists, with the directory it is listed in
(no filtering): the comparison set for the traversal filter. -/
def listedEntries : List Char → List DirTree → List (List Char × List Char)
  | _, [] => []
  | d, e :: rest =>
    (match e with
     | .dir nm sub => listedEntries (d ++ '/' :: nm) sub
     | .file _ => []) ++
    [(d, e.nameOf)] ++
    listedEntries d rest

/-! ### Concrete fixtures used to witness the theorems below -/

/-- An empty filesystem. -/
def emptyFS : FS := ⟨fun _ => none, fun _ => false⟩

/-- A container file carrying two tracks and one pre-existing attachment. -/
def mediaFile1 : File := ⟨7, [0, 1], ["old.png"], [], false⟩

/-- A container file already carrying the canonical cover attachment. -/
def coveredFile : File := ⟨7, [0], ["cover.jpg"], [], true⟩

/-- A poster image blob. -/
def coverBlob : File := blobFile 3

/-- Filesystem with a single mp4 source file (render-failure witness). -/
def fsC1 : FS :=
  ⟨fun p => if p = "a/b.mp4".data then some mediaFile1 else none, fun _ => false⟩

/-- Filesystem with an mp4 source and a cover image. -/
def fsC2 : FS :=
  ⟨fun p =>
    if p = "d/movie.mp4".data then some mediaFile1
    else if p = "c.jpg".data then some coverBlob
    else none,
   fun _ => false⟩

/-- Filesystem with an mkv source and a cover image. -/
def fsC2b : FS :=
  ⟨fun p =>
    if p = "d/movie.mkv".data then some mediaFile1
    else if p = "c.jpg".data then some coverBlob
    else none,
   fun _ => false⟩

/-- Filesystem with a parseable mkv already carrying the cover attachment. -/
def fsC6 : FS :=
  ⟨fun p => if p = "d/b-(2001).mkv".data then some coveredFile else none,
   fun _ => false⟩

/-- Filesystem with an unparseable-named mkv already carrying the cover
attachment. -/
def fsC6b : FS :=
  ⟨fun p => if p = "d/movie.mkv".data then some coveredFile else none,
   fun _ => false⟩

/-- Filesystem with a cached poster for the key (X, 2000). -/
def fsC8 : FS :=
  ⟨fun p => if p = "movie_posters/X-2000.jpg".data then some coverBlob else none,
   fun _ => true⟩

/-! ### Lemmas about the string primitives -/

theorem splitOnChar_ne_nil (c : Char) (s : List Char) : splitOnChar c s ≠ [] := by
  cases s with
  | nil => simp [splitOnChar]
  | cons x xs =>
    rcases h : splitOnChar c xs with _ | ⟨y, ys⟩
    · exact absurd h (splitOnChar_ne_nil c xs)
    · simp only [splitOnChar, h]
      split <;> simp

theorem joinWith_cons_cons (c : Char) (a b : List Char) (L : List (List Char)) :
    joinWith c (a :: b :: L) = a ++ c :: joinWith c (b :: L) := rfl

theorem joinWith_splitOnChar (c : Char) (s : List Char) :
    joinWith c (splitOnChar c s) = s := by
  induction s with
  | nil => rfl
  | cons x xs ih =>
    rcases h : splitOnChar c xs with _ | ⟨y, ys⟩
    · exact absurd h (splitOnChar_ne_nil c xs)
    · rw [h] at ih
      simp only [splitOnChar, h]
      by_cases hx : x = c
      · subst hx
        rw [if_pos rfl, joinWith_cons_cons, List.nil_append, ih]
      · rw [if_neg hx]
        cases ys with
        | nil =>
          simp only [joinWith] at ih ⊢
          rw [ih]
        | cons z zs =>
          simp only [joinWith_cons_cons] at ih ⊢
          rw [← ih]
          simp

theorem splitOnChar_of_not_mem {c : Char} {s : List Char} (h : c ∉ s) :
    splitOnChar c s = [s] := by
  induction s with
  | nil => rfl
  | cons x xs ih =>
    simp only [List.mem_cons, not_or] at h
    simp only [splitOnChar, ih h.2]
    rw [if_neg (Ne.symm h.1)]

theorem splitOnChar_append_cons (c : Char) (a b : List Char) :
    splitOnChar c (a ++ c :: b) = splitOnChar c a ++ splitOnChar c b := by
  induction a with
  | nil =>
    rcases h : splitOnChar c b with _ | ⟨y, ys⟩
    · exact absurd h (splitOnChar_ne_nil c b)
    · simp only [List.nil_append, splitOnChar, h]
      simp
  | cons x xs ih =>
    rcases h : splitOnChar c xs with _ | ⟨y, ys⟩
    · exact absurd h (splitOnChar_ne_nil c xs)
    · simp only [List.cons_append, splitOnChar, h, List.append_eq]
      rw [ih, h]
      by_cases hx : x = c <;> simp [hx]

theorem mem_of_mem_splitOnChar {c a : Char} {s x : List Char}
    (hx : x ∈ splitOnChar c s) (ha : a ∈ x) : a ∈ s := by
  induction s generalizing x with
  | nil =>
    simp only [splitOnChar, List.mem_singleton] at hx
    subst hx
    exact absurd ha (List.not_mem_nil a)
  | cons y ys ih =>
    rcases h : splitOnChar c ys with _ | ⟨z, zs⟩
    · exact absurd h (splitOnChar_ne_nil c ys)
    · simp only [splitOnChar, h] at hx
      by_cases hy : y = c
      · rw [if_pos hy] at hx
        rcases List.mem_cons.1 hx with h1 | h1
        · subst h1
          exact absurd ha (List.not_mem_nil a)
        · refine List.mem_cons_of_mem y (ih ?_ ha)
          rw [h]
          exact h1
      · rw [if_neg hy] at hx
        rcases List.mem_cons.1 hx with h1 | h1
        · subst h1
          rcases List.mem_cons.1 ha with h2 | h2
          · exact h2 ▸ List.mem_cons_self y ys
          · refine List.mem_cons_of_mem y (ih ?_ h2)
            rw [h]
            exact List.mem_cons_self z zs
        · refine List.mem_cons_of_mem y (ih ?_ ha)
          rw [h]
          exact List.mem_cons_of_mem z h1

theorem mem_joinWith {c a : Char} {L : List (List Char)}
    (h : a ∈ joinWith c L) : a = c ∨ ∃ x ∈ L, a ∈ x := by
  induction L with
  | nil => exact absurd h (List.not_mem_nil a)
  | cons x xs ih =>
    cases xs with
    | nil =>
      simp only [joinWith] at h
      exact Or.inr ⟨x, List.mem_singleton_self x, h⟩
    | cons y ys =>
      rw [joinWith_cons_cons] at h
      rcases List.mem_append.1 h with h1 | h1
      · exact Or.inr ⟨x, List.mem_cons_self x _, h1⟩
      · rcases List.mem_cons.1 h1 with h2 | h2
        · exact Or.inl h2
        · rcases ih h2 with h3 | ⟨z, hz, haz⟩
          · exact Or.inl h3
          · exact Or.inr ⟨z, List.mem_cons_of_mem x hz, haz⟩

theorem not_mem_stem {c : Char} {s : List Char} (hc : c ≠ '.') (h : c ∉ s) :
    c ∉ stem s := by
  intro hmem
  rcases mem_joinWith hmem with h1 | ⟨x, hx, hcx⟩
  · exact hc h1
  · exact h (mem_of_mem_splitOnChar (List.dropLast_subset _ hx) hcx)

theorem stem_append_ext {a t : List Char} (ht : '.' ∉ t) :
    stem (a ++ '.' :: t) = a := by
  rw [stem, splitOnChar_append_cons, splitOnChar_of_not_mem ht,
    List.dropLast_concat, joinWith_splitOnChar]

theorem lastPart_of_not_mem {q : List Char} (h : '/' ∉ q) : lastPart q = q := by
  rw [lastPart, splitOnChar_of_not_mem h]
  rfl

theorem lastPart_append {d b : List Char} (hb : '/' ∉ b) :
    lastPart (d ++ '/' :: b) = b := by
  rw [lastPart, splitOnChar_append_cons, splitOnChar_of_not_mem hb, List.getLastD_concat]

theorem exists_slash_decomp {q : List Char} (h : '/' ∈ q) :
    ∃ d b, q = d ++ '/' :: b ∧ '/' ∉ b := by
  induction q with
  | nil => exact absurd h (List.not_mem_nil _)
  | cons x xs ih =>
    by_cases hxs : '/' ∈ xs
    · obtain ⟨d, b, hq, hb⟩ := ih hxs
      exact ⟨x :: d, b, by simp [hq], hb⟩
    · have hx : x = '/' := by
        rcases List.mem_cons.1 h with h1 | h1
        · exact h1.symm
        · exact absurd h1 hxs
      exact ⟨[], xs, by simp [hx], hxs⟩

theorem preSlash_of_not_mem {q : List Char} (h : '/' ∉ q) : preSlash q = [] := by
  rw [preSlash, List.dropWhile_eq_nil_iff.2, List.reverse_nil]
  intro x hx
  simp only [ne_eq, decide_eq_true_eq]
  intro he
  exact h (he ▸ List.mem_reverse.1 hx)

theorem preSlash_append {d b : List Char} (hb : '/' ∉ b) :
    preSlash (d ++ '/' :: b) = d ++ ['/'] := by
  have hall : ∀ a ∈ b.reverse, (fun c => decide (c ≠ '/')) a = true := by
    intro a ha
    simp only [ne_eq, decide_eq_true_eq]
    intro he
    exact hb (he ▸ List.mem_reverse.1 ha)
  rw [preSlash, List.reverse_append, List.reverse_cons, List.append_assoc,
    List.dropWhile_append_of_pos hall, List.singleton_append,
    List.dropWhile_cons_of_neg (by simp), List.reverse_cons, List.reverse_reverse]

theorem rstripSlash_decomp (d : List Char) :
    ∃ k, d = rstripSlash d ++ List.replicate k '/' ∧
      ∀ h : rstripSlash d ≠ [], (rstripSlash d).getLast h ≠ '/' := by
  refine ⟨(d.reverse.takeWhile (fun c => c = '/')).length, ?_, ?_⟩
  · have h2 : (d.reverse.takeWhile (fun c => c = '/')).reverse
        = List.replicate (d.reverse.takeWhile (fun c => c = '/')).length '/' := by
      have hl : ∀ x ∈ (d.reverse.takeWhile (fun c => c = '/')).reverse, x = '/' := by
        intro x hx
        simpa using List.mem_takeWhile_imp (List.mem_reverse.1 hx)
      have h3 := List.eq_replicate_length.2 hl
      simpa using h3
    conv_lhs => rw [← List.reverse_reverse d, ← List.takeWhile_append_dropWhile
      (p := fun c => c = '/') (l := d.reverse)]
    rw [List.reverse_append, h2]
    simp only [rstripSlash]
  · intro h hlast
    have hne : d.reverse.dropWhile (fun c => c = '/') ≠ [] := by
      intro hnil
      apply h
      simp only [rstripSlash, hnil, List.reverse_nil]
    have hhead := List.head_dropWhile_not (fun c => c = '/') d.reverse hne
    simp only [decide_eq_false_iff_not] at hhead
    apply hhead
    have hg : (rstripSlash d).getLast h
        = (d.reverse.dropWhile (fun c => c = '/')).head hne := by
      simp only [rstripSlash] at h ⊢
      exact List.getLast_reverse h
    rw [hg] at hlast
    exact hlast

theorem rstripSlash_of_getLast_ne {d : List Char} (hd : d ≠ [])
    (h : d.getLast hd ≠ '/') : rstripSlash d = d := by
  rw [rstripSlash]
  rcases hrev : d.reverse with _ | ⟨c, t⟩
  · exact absurd (by simpa using hrev) hd
  · have hc : c = d.getLast hd := by
      have h1 : d.getLast? = some c := by
        rw [List.getLast?_eq_head?_reverse, hrev]
        rfl
      exact ((List.getLast_eq_iff_getLast_eq_some hd).2 h1).symm
    rw [List.dropWhile_cons_of_neg (by simpa using hc ▸ h), ← hrev, List.reverse_reverse]

theorem dirname_of_not_mem {q : List Char} (h : '/' ∉ q) : dirname q = [] := by
  rw [dirname, preSlash_of_not_mem h]
  simp [rstripSlash]

theorem rstripSlash_append_slash (d : List Char) :
    rstripSlash (d ++ ['/']) = rstripSlash d := by
  simp only [rstripSlash, List.reverse_append, List.reverse_cons, List.reverse_nil,
    List.nil_append, List.singleton_append]
  rw [List.dropWhile_cons_of_pos (by simp)]

theorem dirname_append {d b : List Char} (hb : '/' ∉ b) :
    dirname (d ++ '/' :: b) =
      if (d ++ ['/']).all (fun c => c = '/') then d ++ ['/'] else rstripSlash d := by
  rw [dirname, preSlash_append hb, rstripSlash_append_slash]

theorem endsWithL_iff {s t : List Char} : endsWithL s t = true ↔ ∃ a, s = a ++ t := by
  rw [endsWithL, decide_eq_true_eq]
  constructor
  · intro h
    have hpre : t.reverse <+: s.reverse := by
      rw [List.prefix_iff_eq_take]
      simpa using h.symm
    obtain ⟨a, ha⟩ := List.reverse_prefix.1 hpre
    exact ⟨a, ha.symm⟩
  · rintro ⟨a, rfl⟩
    rw [List.reverse_append]
    exact List.take_left' (by simp)

theorem startsWithL_append (t r : List Char) : startsWithL (t ++ r) t = true := by
  induction t with
  | nil => simp [startsWithL]
  | cons p ps ih => simp [startsWithL, ih]

theorem hasSubstr_of_startsWith {s t : List Char} (h : startsWithL s t = true) :
    hasSubstr s t = true := by
  cases s with
  | nil => exact h
  | cons x s' => simp [hasSubstr, h]

theorem hasSubstr_of_infix (u t v : List Char) :
    hasSubstr (u ++ t ++ v) t = true := by
  induction u with
  | nil => exact hasSubstr_of_startsWith (by simpa using startsWithL_append t v)
  | cons y u' ih =>
    have ih' : hasSubstr (u' ++ (t ++ v)) t = true := by simpa using ih
    simp [hasSubstr, ih']

theorem getLastD_of_ne_nil {d : List Char} (h : d ≠ []) (x : Char) :
    d.getLastD x = d.getLast h := by
  rw [List.getLastD_eq_getLast?, List.getLast?_eq_getLast d h]
  rfl

theorem pyJoin_nil (b : List Char) : pyJoin [] b = b := by
  simp [pyJoin]

theorem pyJoin_of_last_slash {d : List Char} (hd : d ≠ []) (h : d.getLastD ' ' = '/')
    (b : List Char) : pyJoin d b = d ++ b := by
  rw [pyJoin, if_neg hd, if_pos h]

theorem pyJoin_of_last_ne {d : List Char} (hd : d ≠ []) (h : d.getLastD ' ' ≠ '/')
    (b : List Char) : pyJoin d b = d ++ '/' :: b := by
  rw [pyJoin, if_neg hd, if_neg h]

theorem stem_temp (g : List Char) :
    stem ("temp_".data ++ g ++ ".mkv".data) = "temp_".data ++ g := by
  have hm : ".mkv".data = '.' :: "mkv".data := rfl
  rw [hm]
  exact stem_append_ext (by decide)

theorem ne_temp_self {b : List Char}
    (h : b = "temp_".data ++ stem b ++ ".mkv".data) : False := by
  have h2 := congrArg stem h
  rw [stem_temp (stem b)] at h2
  have h3 := congrArg List.length h2
  have h5 : "temp_".data.length = 5 := by decide
  rw [List.length_append, h5] at h3
  omega

theorem slash_not_mem_tempBase {b : List Char} (hb : '/' ∉ b) :
    '/' ∉ ("temp_".data ++ stem b ++ ".mkv".data) := by
  intro h
  rcases List.mem_append.1 h with h1 | h1
  · rcases List.mem_append.1 h1 with h2 | h2
    · revert h2
      decide
    · exact not_mem_stem (by decide) hb h2
  · revert h1
    decide

theorem tbase_ne_fbase (g : List Char) :
    "temp_".data ++ g ++ ".mkv".data ≠ g ++ ".mkv".data := by
  intro h
  have h3 := congrArg List.length h
  have h5 : "temp_".data.length = 5 := by decide
  simp only [List.length_append, h5] at h3
  omega

/-- The temporary sibling path is never the (normalized) source path itself:
`temp_{stem}.mkv` in the same directory differs from every possible source
file name. -/
theorem tempPathOf_ne_normPath (mf : List Char) : tempPathOf mf ≠ normPath mf := by
  intro heq
  rw [tempPathOf] at heq
  by_cases hq : '/' ∈ normPath mf
  · obtain ⟨d, b, hdecomp, hb⟩ := exists_slash_decomp hq
    rw [hdecomp, dirname_append hb, lastPart_append hb] at heq
    by_cases hall : (d ++ ['/']).all (fun c => c = '/')
    · rw [if_pos hall,
        pyJoin_of_last_slash (by simp) (by rw [List.getLastD_concat])] at heq
      rw [List.append_assoc, List.singleton_append] at heq
      have heq2 : "temp_".data ++ stem b ++ ".mkv".data = b := by
        have h1 := (List.append_right_inj d).1 heq
        exact (List.cons_eq_cons.1 h1).2
      exact ne_temp_self heq2.symm
    · rw [if_neg hall] at heq
      obtain ⟨k, hd, hlast⟩ := rstripSlash_decomp d
      by_cases hnil : rstripSlash d = []
      · rw [hnil, pyJoin_nil] at heq
        refine slash_not_mem_tempBase hb ?_
        rw [heq]
        exact List.mem_append.2 (Or.inr (List.mem_cons_self '/' b))
      · rw [pyJoin_of_last_ne hnil
          (by rw [getLastD_of_ne_nil hnil ' ']; exact hlast hnil)] at heq
        rw [show d ++ '/' :: b = rstripSlash d ++ (List.replicate k '/' ++ '/' :: b) by
          rw [← List.append_assoc, ← hd]] at heq
        have h1 := (List.append_right_inj (rstripSlash d)).1 heq
        cases k with
        | zero =>
          rw [List.replicate_zero, List.nil_append] at h1
          exact ne_temp_self ((List.cons_eq_cons.1 h1).2).symm
        | succ k' =>
          have h2 : "temp_".data ++ stem b ++ ".mkv".data
              = List.replicate k' '/' ++ '/' :: b := by
            have h3 := congrArg List.tail h1
            simpa [List.replicate_succ] using h3
          refine slash_not_mem_tempBase hb ?_
          rw [h2]
          exact List.mem_append.2 (Or.inr (List.mem_cons_self '/' b))
  · rw [dirname_of_not_mem hq, lastPart_of_not_mem hq, pyJoin_nil] at heq
    exact ne_temp_self heq.symm

/-- The temporary sibling path always differs from the final destination
path. -/
theorem tempPathOf_ne_finalPathOf (mf : List Char) :
    tempPathOf mf ≠ finalPathOf mf := by
  intro heq
  rw [tempPathOf, finalPathOf] at heq
  by_cases hd : dirname (normPath mf) = []
  · rw [hd, pyJoin_nil, pyJoin_nil] at heq
    exact tbase_ne_fbase _ heq
  · by_cases hl : (dirname (normPath mf)).getLastD ' ' = '/'
    · rw [pyJoin_of_last_slash hd hl, pyJoin_of_last_slash hd hl] at heq
      exact tbase_ne_fbase _ ((List.append_right_inj _).1 heq)
    · rw [pyJoin_of_last_ne hd hl, pyJoin_of_last_ne hd hl] at heq
      have h1 := (List.append_right_inj _).1 heq
      exact tbase_ne_fbase _ (List.cons_eq_cons.1 h1).2

theorem stem_append_mkv (a : List Char) : stem (a ++ ".mkv".data) = a := by
  have hm : ".mkv".data = '.' :: "mkv".data := rfl
  rw [hm]
  exact stem_append_ext (by decide)

/-- On a canonical path (no `//` inside, `.mkv` extension), the rename
destination `dirname ++ stem ++ ".mkv"` is the source path itself. -/
theorem finalPathOf_eq_normPath {mf : List Char}
    (hns : hasSubstr (normPath mf) "//".data = false)
    (hmkv : endsWithL (normPath mf) ".mkv".data = true) :
    finalPathOf mf = normPath mf := by
  obtain ⟨a, ha⟩ := endsWithL_iff.1 hmkv
  rw [finalPathOf]
  by_cases hq : '/' ∈ normPath mf
  · obtain ⟨d, b, hdecomp, hb⟩ := exists_slash_decomp hq
    have hbsuf : ".mkv".data <:+ b := by
      have h1 : '/' :: b <:+ normPath mf := ⟨d, hdecomp.symm⟩
      have h2 : ".mkv".data <:+ normPath mf := ⟨a, ha.symm⟩
      rcases List.suffix_or_suffix_of_suffix h2 h1 with h3 | h3
      · rcases List.suffix_cons_iff.1 h3 with h4 | h4
        · have hm : ".mkv".data = '.' :: "mkv".data := rfl
          rw [hm] at h4
          exact absurd (List.cons_eq_cons.1 h4).1 (by decide)
        · exact h4
      · obtain ⟨t, ht⟩ := h3
        have hmem : '/' ∈ ".mkv".data := by
          rw [← ht]
          exact List.mem_append.2 (Or.inr (List.mem_cons_self '/' b))
        exact absurd hmem (by decide)
    obtain ⟨a', ha'⟩ := hbsuf
    rw [hdecomp, dirname_append hb, lastPart_append hb, ← ha', stem_append_mkv]
    by_cases hall : (d ++ ['/']).all (fun c => c = '/')
    · rw [if_pos hall, pyJoin_of_last_slash (by simp) (by rw [List.getLastD_concat])]
      simp
    · rw [if_neg hall]
      have hdne : d ≠ [] := by
        intro hdnil
        apply hall
        rw [hdnil]
        simp
      have hdlast : d.getLast hdne ≠ '/' := by
        intro hdl
        have hdd : d = d.dropLast ++ ['/'] := by
          conv_lhs => rw [← List.dropLast_concat_getLast hdne]
          rw [hdl]
        have : hasSubstr (normPath mf) "//".data = true := by
          rw [hdecomp, hdd, List.append_assoc]
          have hsh : ['/'] ++ '/' :: b = "//".data ++ b := rfl
          rw [hsh, ← List.append_assoc]
          exact hasSubstr_of_infix d.dropLast "//".data b
        rw [this] at hns
        cases hns
      rw [rstripSlash_of_getLast_ne hdne hdlast,
        pyJoin_of_last_ne hdne (by rw [getLastD_of_ne_nil hdne ' ']; exact hdlast)]
  · rw [dirname_of_not_mem hq, lastPart_of_not_mem hq, pyJoin_nil, ha, stem_append_mkv]

/-! ### Lemmas about the regex-search model -/

theorem findMatchFrom_none_iff {p : List Char → Bool} {s : List Char} {i : Nat} :
    findMatchFrom p i s = none ↔ ∀ j, p (s.drop j) = false := by
  induction s generalizing i with
  | nil =>
    simp only [findMatchFrom, List.drop_nil]
    cases hp : p [] <;> simp [hp]
  | cons c rest ih =>
    cases hp : p (c :: rest) with
    | true =>
      simp only [findMatchFrom, hp, if_true]
      constructor
      · intro h
        cases h
      · intro h
        have h0 := h 0
        rw [List.drop_zero, hp] at h0
        cases h0
    | false =>
      simp only [findMatchFrom, hp, Bool.false_eq_true, if_false]
      rw [ih]
      constructor
      · intro h j
        cases j with
        | zero => simpa using hp
        | succ j' => simpa using h j'
      · intro h j
        simpa using h (j + 1)

theorem findMatchFrom_le {p : List Char → Bool} {s : List Char} {i j : Nat}
    (h : findMatchFrom p i s = some j) : i ≤ j := by
  induction s generalizing i with
  | nil =>
    simp only [findMatchFrom] at h
    split at h
    · cases h
      exact Nat.le_refl j
    · cases h
  | cons c rest ih =>
    simp only [findMatchFrom] at h
    split at h
    · cases h
      exact Nat.le_refl j
    · exact Nat.le_of_succ_le (ih h)

theorem findMatchFrom_some_spec {p : List Char → Bool} {s : List Char} {i j : Nat}
    (h : findMatchFrom p i s = some j) : p (s.drop (j - i)) = true := by
  induction s generalizing i with
  | nil =>
    simp only [findMatchFrom] at h
    split at h
    · cases h
      simpa [Nat.sub_self] using by assumption
    · cases h
  | cons c rest ih =>
    simp only [findMatchFrom] at h
    split at h
    · rename_i hp
      cases h
      simpa [Nat.sub_self] using hp
    · have hle := findMatchFrom_le h
      have hspec := ih h
      have hij : j - i = (j - (i + 1)) + 1 := by omega
      rw [hij, List.drop_succ_cons]
      exact hspec

theorem findMatchFrom_zero_iff {p : List Char → Bool} {s : List Char} :
    findMatchFrom p 0 s = some 0 ↔ p s = true := by
  constructor
  · intro h
    cases s with
    | nil =>
      simp only [findMatchFrom] at h
      split at h
      · assumption
      · cases h
    | cons c rest =>
      simp only [findMatchFrom] at h
      split at h
      · assumption
      · exact absurd (findMatchFrom_le h) (by omega)
  · intro h
    cases s with
    | nil => simp [findMatchFrom, h]
    | cons c rest => simp [findMatchFrom, h]

theorem matchParenAt_inv {l : List Char} (h : matchParenAt l = true) :
    ∃ c1 c2 c3 c4 rest, l = '(' :: c1 :: c2 :: c3 :: c4 :: ')' :: rest ∧
      (c1.isDigit ∧ c2.isDigit ∧ c3.isDigit ∧ c4.isDigit) := by
  rcases l with _ | ⟨c0, _ | ⟨c1, _ | ⟨c2, _ | ⟨c3, _ | ⟨c4, _ | ⟨c5, rest⟩⟩⟩⟩⟩⟩ <;>
    simp only [matchParenAt, Bool.false_eq_true] at h
  simp only [Bool.and_eq_true, beq_iff_eq] at h
  obtain ⟨⟨⟨⟨⟨hc0, h1⟩, h2⟩, h3⟩, h4⟩, hc5⟩ := h
  subst hc0
  subst hc5
  exact ⟨c1, c2, c3, c4, rest, rfl, h1, h2, h3, h4⟩

theorem matchFourAt_inv {l : List Char} (h : matchFourAt l = true) :
    ∃ c0 c1 c2 c3 rest, l = c0 :: c1 :: c2 :: c3 :: rest ∧
      (c0.isDigit ∧ c1.isDigit ∧ c2.isDigit ∧ c3.isDigit) := by
  rcases l with _ | ⟨c0, _ | ⟨c1, _ | ⟨c2, _ | ⟨c3, rest⟩⟩⟩⟩ <;>
    simp only [matchFourAt, Bool.false_eq_true] at h
  simp only [Bool.and_eq_true] at h
  obtain ⟨⟨⟨h0, h1⟩, h2⟩, h3⟩ := h
  exact ⟨c0, c1, c2, c3, rest, rfl, h0, h1, h2, h3⟩

/-! ### Lemmas about the provider chain and the mux step -/

theorem runSearches_of_all_fail {s : List Char → Except Unit (List (List Char))}
    {qs : List (List Char)} (h : ∀ q ∈ qs, s q = .error ()) (gis : GisState) :
    runSearches s gis qs = gis := by
  induction qs with
  | nil => rfl
  | cons q rest ih =>
    simp only [runSearches, h q (List.mem_cons_self q rest)]
    exact ih (fun q' hq' => h q' (List.mem_cons_of_mem q hq'))

theorem runSearches_indep {s : List Char → Except Unit (List (List Char))}
    {qs : List (List Char)} (h : ∃ q ∈ qs, ∃ r, s q = .ok r) (g1 g2 : GisState) :
    runSearches s g1 qs = runSearches s g2 qs := by
  induction qs with
  | nil =>
    obtain ⟨q, hq, _⟩ := h
    exact absurd hq (List.not_mem_nil q)
  | cons q rest ih =>
    rcases hsq : s q with e | rs
    · simp only [runSearches, hsq]
      refine ih ?_
      obtain ⟨q', hq', r, hr⟩ := h
      rcases List.mem_cons.1 hq' with h1 | h1
      · subst h1
        rw [hsq] at hr
        cases hr
      · exact ⟨q', h1, r, hr⟩
    · simp only [runSearches, hsq]

theorem findPortrait_of_all_fail {i : List Char → Except Unit (Nat × Nat × Nat)}
    {us : List (List Char)} (h : ∀ u ∈ us, i u = .error ()) :
    findPortrait i us = none := by
  induction us with
  | nil => rfl
  | cons u rest ih =>
    simp only [findPortrait, h u (List.mem_cons_self u rest)]
    exact ih (fun u' hu' => h u' (List.mem_cons_of_mem u hu'))

/-- The rename step deposits the rendered container at the final path. -/
theorem muxCommit_files_final {fs : FS} {q tempP finalP : List Char}
    {rendered srcF : File} (htq : tempP ≠ q) :
    (muxCommit fs q tempP finalP rendered srcF).files finalP = some rendered := by
  simp only [muxCommit]
  simp [htq]

/-- Whenever `mux_movie` reports success, the file at the final destination
path is the freshly rendered container whose attachment list is exactly the
canonical cover. -/
theorem mux_movie_success_files {numTracks : Nat} {renderOk : Bool}
    {junk : Option File} {fs : FS} {mf cov : List Char}
    (h : (mux_movie numTracks renderOk junk fs mf cov).2 = true) :
    ∃ f, (mux_movie numTracks renderOk junk fs mf cov).1.files (finalPathOf mf)
        = some f ∧ f.attachments = ["cover.jpg"] := by
  have hne1 : normPath mf ≠ tempPathOf mf :=
    fun hcc => tempPathOf_ne_normPath mf hcc.symm
  have hne2 := tempPathOf_ne_normPath mf
  rcases hX : muxLoad numTracks fs mf with _ | ⟨sb, tracks⟩
  · simp only [mux_movie, hX] at h
    exact Bool.noConfusion h
  · rcases hC : fs.files (normPath cov) with _ | coverF
    · simp only [mux_movie, hX, hC] at h
      exact Bool.noConfusion h
    · cases renderOk with
      | false =>
        simp only [mux_movie, hX, hC, Bool.false_eq_true, if_false] at h
      | true =>
        simp only [mux_movie, hX, hC] at h ⊢
        rw [if_true] at h ⊢
        rw [if_neg hne1] at h ⊢
        rcases hsrc : fs.files (normPath mf) with _ | srcF
        · rw [hsrc] at h
          exact Bool.noConfusion h
        · exact ⟨_, muxCommit_files_final hne2, rfl⟩

/-! ### Claim theorems -/

/-- Claim C1: if the render step of `ContainerMutator.mux` fails, the mutation
reports failure, the file at the (normalized) source path is unchanged — still
present with its original bytes — and no file has been created at the final
destination path; the chmod/remove/rename steps that delete the source are
sequenced strictly after the render in `mux_movie`, so the source is deleted
only once a replacement has been fully rendered. -/
theorem c1_mux_render_failure_is_atomic (numTracks : Nat) (junk : Option File)
    (fs : FS) (mf cov : List Char) :
    (mux_movie numTracks false junk fs mf cov).2 = false
    ∧ (mux_movie numTracks false junk fs mf cov).1.files (normPath mf)
        = fs.files (normPath mf)
    ∧ (fs.files (finalPathOf mf) = none →
        (mux_movie numTracks false junk fs mf cov).1.files (finalPathOf mf) = none) := by
  have hne1 : normPath mf ≠ tempPathOf mf :=
    fun hcc => tempPathOf_ne_normPath mf hcc.symm
  have hne4 : finalPathOf mf ≠ tempPathOf mf :=
    fun hcc => tempPathOf_ne_finalPathOf mf hcc.symm
  rcases hX : muxLoad numTracks fs mf with _ | ⟨sb, tracks⟩
  · simp [mux_movie, hX]
  · rcases hC : fs.files (normPath cov) with _ | coverF
    · simp [mux_movie, hX, hC]
    · simp only [mux_movie, hX, hC, Bool.false_eq_true, if_false]
      refine ⟨trivial, if_neg hne1, fun hfin => ?_⟩
      rw [if_neg hne4]
      exact hfin

/-- Witness for C1: a concrete mp4 source with a failing render. -/
theorem c1_witness :
    fsC1.files (finalPathOf "a/b.mp4".data) = none
    ∧ (mux_movie 0 false none fsC1 "a/b.mp4".data "c.jpg".data).2 = false
    ∧ (mux_movie 0 false none fsC1 "a/b.mp4".data "c.jpg".data).1.files
        (normPath "a/b.mp4".data) = fsC1.files (normPath "a/b.mp4".data)
    ∧ (mux_movie 0 false none fsC1 "a/b.mp4".data "c.jpg".data).1.files
        (finalPathOf "a/b.mp4".data) = none := by
  have hfin : fsC1.files (finalPathOf "a/b.mp4".data) = none := by decide
  have h := c1_mux_render_failure_is_atomic 0 none fsC1 "a/b.mp4".data "c.jpg".data
  exact ⟨hfin, h.1, h.2.1, h.2.2 hfin⟩

/-- Claim C2 counterexample: for the supported mp4 container `d/movie.mp4` the
mux succeeds, yet afterwards NO file exists at the original source path — the
rendered replacement lives at `d/movie.mkv`, so the media file's path is not
preserved. -/
theorem c2_counterexample :
    (mux_movie 2 true none fsC2 "d/movie.mp4".data "c.jpg".data).2 = true
    ∧ (mux_movie 2 true none fsC2 "d/movie.mp4".data "c.jpg".data).1.files
        "d/movie.mp4".data = none
    ∧ ((mux_movie 2 true none fsC2 "d/movie.mp4".data "c.jpg".data).1.files
        "d/movie.mkv".data).isSome = true := by
  decide

/-- Claim C2 (amended): after a successful mux the replacement exists at the
final path (source directory + source stem + `.mkv`); when the normalized
source path is canonical (no `//`) and itself carries the `.mkv` extension,
that final path is the source path, so the path is preserved exactly for mkv
sources — not for mp4/avi sources, whose path changes extension. -/
theorem c2_amended_replacement_location {numTracks : Nat} {renderOk : Bool}
    {junk : Option File} {fs : FS} {mf cov : List Char}
    (h : (mux_movie numTracks renderOk junk fs mf cov).2 = true) :
    (∃ f, (mux_movie numTracks renderOk junk fs mf cov).1.files (finalPathOf mf)
        = some f)
    ∧ (hasSubstr (normPath mf) "//".data = false →
        endsWithL (normPath mf) ".mkv".data = true →
        ∃ f, (mux_movie numTracks renderOk junk fs mf cov).1.files (normPath mf)
          = some f) := by
  obtain ⟨f, hf, _⟩ := mux_movie_success_files h
  refine ⟨⟨f, hf⟩, fun hns hmkv => ⟨f, ?_⟩⟩
  rw [← finalPathOf_eq_normPath hns hmkv]
  exact hf

/-- Witness for the amended C2: a concrete mkv source whose path survives the
mutation. -/
theorem c2_witness :
    (mux_movie 1 true none fsC2b "d/movie.mkv".data "c.jpg".data).2 = true
    ∧ (∃ f, (mux_movie 1 true none fsC2b "d/movie.mkv".data "c.jpg".data).1.files
        (normPath "d/movie.mkv".data) = some f) := by
  have hok : (mux_movie 1 true none fsC2b "d/movie.mkv".data "c.jpg".data).2 = true := by
    decide
  exact ⟨hok, (c2_amended_replacement_location hok).2 (by decide) (by decide)⟩

/-- Claim C5: whenever `ContainerMutator.mux` completes successfully — on any
media file and cover asset, including a file that already carried attachments,
re-processed under force — the container at the final destination path has an
attachment list that is exactly `["cover.jpg"]`: all pre-existing attachments
are stripped and the resolved cover is the only one attached, under the fixed
canonical name. -/
theorem c5_exactly_one_cover_attachment {numTracks : Nat} {renderOk : Bool}
    {junk : Option File} {fs : FS} {mf cov : List Char}
    (h : (mux_movie numTracks renderOk junk fs mf cov).2 = true) :
    ∃ f, (mux_movie numTracks renderOk junk fs mf cov).1.files (finalPathOf mf)
      = some f ∧ f.attachments = ["cover.jpg"] :=
  mux_movie_success_files h

/-- Witness for C5: a source that carried a pre-existing attachment ends up
with exactly the canonical cover attachment. -/
theorem c5_witness :
    mediaFile1.attachments = ["old.png"]
    ∧ (mux_movie 1 true none fsC2b "d/movie.mkv".data "c.jpg".data).2 = true
    ∧ ∃ f, (mux_movie 1 true none fsC2b "d/movie.mkv".data "c.jpg".data).1.files
        (finalPathOf "d/movie.mkv".data) = some f ∧ f.attachments = ["cover.jpg"] := by
  exact ⟨by decide, by decide, c5_exactly_one_cover_attachment (by decide)⟩

/-- Claim C3 counterexample: the name `1984.mkv` contains a four-digit run
(at position 0), yet the parser raises the format error, because the Python
source tests `if year_start_idx:` and the integer 0 is falsy. -/
theorem c3_counterexample :
    get_movie_name_and_year "1984.mkv".data = .error ()
    ∧ matchFourAt (lastPart (normPath "1984.mkv".data)) = true := by
  constructor
  · rfl
  · decide

/-- Claim C3 (amended): `get_movie_name_and_year` raises the format error
exactly when the file name has no parenthesized `(dddd)` match and, in
addition, either no bare four-digit run exists anywhere or the leftmost bare
four-digit run starts at index 0 of the name (the Python truthiness test
`if year_start_idx:` rejects a year starting at position 0). -/
theorem c3_amended_error_iff (mf : List Char) :
    get_movie_name_and_year mf = .error () ↔
      (∀ j, matchParenAt ((lastPart (normPath mf)).drop j) = false)
      ∧ ((∀ j, matchFourAt ((lastPart (normPath mf)).drop j) = false)
          ∨ matchFourAt (lastPart (normPath mf)) = true) := by
  rcases hp : findMatchFrom matchParenAt 0 (lastPart (normPath mf)) with _ | i
  · rcases hq : findMatchFrom matchFourAt 0 (lastPart (normPath mf)) with _ | i
    · simp only [get_movie_name_and_year, hp, hq]
      refine iff_of_true trivial ⟨fun j => ?_, Or.inl fun j => ?_⟩
      · exact findMatchFrom_none_iff.1 hp j
      · exact findMatchFrom_none_iff.1 hq j
    · simp only [get_movie_name_and_year, hp, hq]
      by_cases hi : i = 0
      · subst hi
        rw [if_pos rfl]
        refine iff_of_true rfl ⟨fun j => ?_, Or.inr ?_⟩
        · exact findMatchFrom_none_iff.1 hp j
        · exact findMatchFrom_zero_iff.1 hq
      · rw [if_neg hi]
        refine iff_of_false (by simp) ?_
        rintro ⟨h1, h2 | h2⟩
        · rw [findMatchFrom_none_iff.2 h2] at hq
          cases hq
        · rw [findMatchFrom_zero_iff.2 h2] at hq
          exact hi (Option.some_inj.1 hq).symm
  · simp only [get_movie_name_and_year, hp]
    refine iff_of_false (by simp) ?_
    rintro ⟨h1, _⟩
    have hs := findMatchFrom_some_spec hp
    rw [Nat.sub_zero] at hs
    rw [h1 i] at hs
    cases hs

/-- Witness for the amended C3: `movie.mkv` has no four-digit run at all and
the parser indeed raises. -/
theorem c3_witness :
    get_movie_name_and_year "movie.mkv".data = .error ()
    ∧ (∀ j, matchParenAt ((lastPart (normPath "movie.mkv".data)).drop j) = false) := by
  refine ⟨by rfl, ?_⟩
  exact ((c3_amended_error_iff "movie.mkv".data).1 (by rfl)).1

/-- Claim C7 counterexample: on `(1984).mkv` the parser succeeds and returns
an EMPTY title together with year 1984, violating the data-model invariant
that the title is non-empty after normalization. -/
theorem c7_counterexample :
    get_movie_name_and_year "(1984).mkv".data = .ok (([] : List Char), "1984".data) := by
  rfl

/-- Claim C7 (amended): every (title, year) pair the parser returns has a year
of exactly four digit characters; the title, however, may be empty (see the
counterexample), so only the year half of the MediaKey invariant holds. -/
theorem c7_amended_year_is_four_digits {mf t y : List Char}
    (h : get_movie_name_and_year mf = .ok (t, y)) :
    y.length = 4 ∧ y.all Char.isDigit = true := by
  rcases hp : findMatchFrom matchParenAt 0 (lastPart (normPath mf)) with _ | i
  · rcases hq : findMatchFrom matchFourAt 0 (lastPart (normPath mf)) with _ | i
    · simp only [get_movie_name_and_year, hp, hq] at h
      cases h
    · simp only [get_movie_name_and_year, hp, hq] at h
      by_cases hi : i = 0
      · rw [if_pos hi] at h
        cases h
      · rw [if_neg hi] at h
        have hs := findMatchFrom_some_spec hq
        rw [Nat.sub_zero] at hs
        obtain ⟨c0, c1, c2, c3, rest, hdrop, hd0, hd1, hd2, hd3⟩ := matchFourAt_inv hs
        have h2 := Except.ok.inj h
        rw [Prod.mk.injEq] at h2
        have hy := h2.2
        rw [hdrop] at hy
        subst hy
        exact ⟨rfl, by simp [hd0, hd1, hd2, hd3]⟩
  · simp only [get_movie_name_and_year, hp] at h
    have hs := findMatchFrom_some_spec hp
    rw [Nat.sub_zero] at hs
    obtain ⟨c1, c2, c3, c4, rest, hdrop, hd1, hd2, hd3, hd4⟩ := matchParenAt_inv hs
    have hdrop1 : (lastPart (normPath mf)).drop (i + 1)
        = c1 :: c2 :: c3 :: c4 :: ')' :: rest := by
      rw [← List.tail_drop, hdrop]
      rfl
    have h2 := Except.ok.inj h
    rw [Prod.mk.injEq] at h2
    have hy := h2.2
    rw [hdrop1] at hy
    subst hy
    exact ⟨rfl, by simp [hd1, hd2, hd3, hd4]⟩

/-- Witness for the amended C7 at a concrete parseable name. -/
theorem c7_witness :
    get_movie_name_and_year "b-(2001).mkv".data = .ok ("b".data, "2001".data)
    ∧ ("2001".data.length = 4 ∧ "2001".data.all Char.isDigit = true) := by
  have hp : get_movie_name_and_year "b-(2001).mkv".data = .ok ("b".data, "2001".data) := by
    rfl
  exact ⟨hp, c7_amended_year_is_four_digits hp⟩

/-- Claim C4 counterexample: a raised transport error in the direct-URL
provider (the very first `requests.get` of the chain) propagates out of the
whole provider chain as an exception instead of being swallowed and treated
as "try the next candidate". -/
theorem c4_counterexample :
    download_poster (fun _ => .error ()) (fun _ => .error ()) (fun _ => .error ())
      [] emptyFS "X".data "2000".data = ([], emptyFS, .error .transport) := by
  rfl

/-- Claim C4 (amended): inside the search-filter provider every per-query and
per-result failure is swallowed — with all search queries and all image
decodes failing, the provider returns "not found" without raising — whereas
in the direct-URL provider only a non-success HTTP status triggers the
fallback; a RAISED transport error on the first request propagates out of the
chain (it is handled only by the per-file orchestrator). -/
theorem c4_amended_failure_semantics :
    (∀ searchO imgO gis fs n y,
      (∀ q, searchO q = .error ()) → (∀ u, imgO u = .error ()) →
      download_poster_from_google_api searchO imgO gis fs n y = (gis, fs, none))
    ∧ (∀ http searchO imgO gis fs y c rest,
        http (dvdUrlFor (if c.isDigit then "0".data else [c])
            (((c :: rest).map (fun ch => if ch = ' ' then '-' else ch)) ++ '-' :: y))
          = .error () →
        download_poster http searchO imgO gis fs (c :: rest) y
          = (gis, fs, .error .transport)) := by
  constructor
  · intro searchO imgO gis fs n y hs hi
    simp only [download_poster_from_google_api]
    rw [runSearches_of_all_fail (fun q _ => hs q) gis,
      findPortrait_of_all_fail (fun u _ => hi u)]
  · intro http searchO imgO gis fs y c rest hh
    simp only [download_poster, download_poster_from_dvdreleasedates, hh]

/-- Witness for the amended C4 at concrete always-failing oracles. -/
theorem c4_witness :
    download_poster_from_google_api (fun _ => .error ()) (fun _ => .error ())
      ["u".data] emptyFS "X".data "2000".data = (["u".data], emptyFS, none)
    ∧ download_poster (fun _ => .error ()) (fun _ => .error ()) (fun _ => .error ())
        [] emptyFS "Y".data "1999".data = ([], emptyFS, .error .transport) := by
  constructor
  · exact c4_amended_failure_semantics.1 _ _ _ _ _ _ (fun _ => rfl) (fun _ => rfl)
  · exact c4_amended_failure_semantics.2 _ _ _ _ _ _ 'Y' [] rfl

/-- Claim C6 counterexample: `d/movie.mkv` already carries the canonical cover
attachment, yet `update_file` with force=false yields Failed rather than
Skipped, because the name-parse step raises before the attachment probe. -/
theorem c6_counterexample :
    movie_poster_added fsC6b (pyJoin "d".data "movie.mkv".data) = some true
    ∧ update_file 0 true none (fun _ => .error ()) (fun _ => .error ())
        (fun _ => .error ()) [] fsC6b "d".data "movie.mkv".data false
      = ([], fsC6b, .Failed) := by
  constructor
  · decide
  · rfl

/-- Claim C6 (amended): for every file whose name parses AND which already
carries the canonical cover attachment, `update_file` with force=false yields
the Skipped outcome and performs zero filesystem writes: the filesystem and
the search state are returned exactly unchanged, no poster is resolved and no
temporary file is created. -/
theorem c6_amended_skip_no_writes {numTracks : Nat} {renderOk : Bool}
    {junk : Option File} {http : List Char → Except Unit (Nat × Nat)}
    {searchO : List Char → Except Unit (List (List Char))}
    {imgO : List Char → Except Unit (Nat × Nat × Nat)} {gis : GisState} {fs : FS}
    {directory file : List Char} {py : List Char × List Char}
    (hp : get_movie_name_and_year file = .ok py)
    (ha : movie_poster_added fs (pyJoin directory file) = some true) :
    update_file numTracks renderOk junk http searchO imgO gis fs directory file false
      = (gis, fs, .Skipped) := by
  simp only [update_file, hp, ha]
  rfl

/-- Witness for the amended C6 at a concrete covered, parseable file. -/
theorem c6_witness :
    get_movie_name_and_year "b-(2001).mkv".data = .ok ("b".data, "2001".data)
    ∧ movie_poster_added fsC6 (pyJoin "d".data "b-(2001).mkv".data) = some true
    ∧ update_file 0 true none (fun _ => .error ()) (fun _ => .error ())
        (fun _ => .error ()) [] fsC6 "d".data "b-(2001).mkv".data false
      = ([], fsC6, .Skipped) := by
  refine ⟨by rfl, by decide, c6_amended_skip_no_writes (by rfl) (by decide)⟩

/-- The cache-directory creation touches only the directory set, never the
file map. -/
theorem mkdirPoster_files (fs : FS) : (mkdirPoster fs).files = fs.files := by
  simp only [mkdirPoster]
  split <;> rfl

/-- Claim C8: when a poster for the key already exists in the cache under the
canonical name, `get_movie_cover` returns that cached asset without invoking
any provider — the result is one fixed value independent of every oracle and
the file map is untouched — and the extension scan honours the fixed priority
order jpg, png, jpeg, returning the first match. -/
theorem c8_cache_hit_skips_providers
    (http : List Char → Except Unit (Nat × Nat))
    (searchO : List Char → Except Unit (List (List Char)))
    (imgO : List Char → Except Unit (Nat × Nat × Nat)) (gis : GisState) (fs : FS)
    (n y p : List Char)
    (hcache : findCachedPoster (mkdirPoster fs) n y = some p) :
    get_movie_cover http searchO imgO gis fs n y = (gis, mkdirPoster fs, .ok p)
    ∧ (get_movie_cover http searchO imgO gis fs n y).2.1.files = fs.files
    ∧ ((fs.files (cachePathOf n y "jpg".data)).isSome = true →
        findCachedPoster (mkdirPoster fs) n y = some (cachePathOf n y "jpg".data))
    ∧ (fs.files (cachePathOf n y "jpg".data) = none →
        (fs.files (cachePathOf n y "png".data)).isSome = true →
        findCachedPoster (mkdirPoster fs) n y = some (cachePathOf n y "png".data)) := by
  have hmain : get_movie_cover http searchO imgO gis fs n y = (gis, mkdirPoster fs, .ok p) := by
    simp only [get_movie_cover, hcache]
  refine ⟨hmain, ?_, ?_, ?_⟩
  · rw [hmain, mkdirPoster_files]
  · intro hjpg
    simp only [findCachedPoster, List.find?, mkdirPoster_files, hjpg]
  · intro hjpg hpng
    simp only [findCachedPoster, List.find?, mkdirPoster_files, hjpg, hpng,
      Option.isSome_none, Bool.false_eq_true]

/-- Witness for C8 at a concrete cached key. -/
theorem c8_witness :
    findCachedPoster (mkdirPoster fsC8) "X".data "2000".data
      = some ("movie_posters/X-2000.jpg".data)
    ∧ get_movie_cover (fun _ => .error ()) (fun _ => .error ()) (fun _ => .error ())
        [] fsC8 "X".data "2000".data
      = ([], mkdirPoster fsC8, .ok ("movie_posters/X-2000.jpg".data)) := by
  have hc : findCachedPoster (mkdirPoster fsC8) "X".data "2000".data
      = some ("movie_posters/X-2000.jpg".data) := by decide
  exact ⟨hc, (c8_cache_hit_skips_providers _ _ _ [] fsC8 _ _ _ hc).1⟩

/-- Claim C10 counterexample: with the same key and the same external
responses (every search query raises, the image oracle accepts a 500x900
portrait), the search-filter provider returns no poster when the global GIS
result list is empty but returns a poster taken from the leftover result list
of a previous file's search when it is not — in-memory state crosses file
boundaries. -/
theorem c10_counterexample :
    (download_poster_from_google_api (fun _ => .error ())
        (fun _ => .ok (500, 900, 7)) [] emptyFS "X".data "2000".data).2.2 = none
    ∧ (download_poster_from_google_api (fun _ => .error ())
        (fun _ => .ok (500, 900, 7)) ["u".data] emptyFS "X".data "2000".data).2.2
      = some ("movie_posters/X-2000.jpg".data) := by
  constructor
  · rfl
  · rfl

/-- Claim C10 (amended): the search-filter provider's output is independent of
the shared in-memory GIS state whenever at least one of the invocation's
search queries succeeds, because a successful search overwrites the result
list; only when every query of the invocation fails can results left by a
previous file's resolution influence the returned asset. -/
theorem c10_amended_state_independence
    {searchO : List Char → Except Unit (List (List Char))}
    {imgO : List Char → Except Unit (Nat × Nat × Nat)} {fs : FS} {n y : List Char}
    (g1 g2 : GisState)
    (h : ∃ q ∈ searchQueries n y, ∃ r, searchO q = .ok r) :
    download_poster_from_google_api searchO imgO g1 fs n y
      = download_poster_from_google_api searchO imgO g2 fs n y := by
  simp only [download_poster_from_google_api]
  rw [runSearches_indep h g1 g2]

/-- Witness for the amended C10: a succeeding first query makes the provider
insensitive to the incoming GIS state. -/
theorem c10_witness :
    download_poster_from_google_api (fun _ => .ok []) (fun _ => .error ())
        [] emptyFS "X".data "2000".data
      = download_poster_from_google_api (fun _ => .ok []) (fun _ => .error ())
        ["u".data] emptyFS "X".data "2000".data := by
  exact c10_amended_state_independence [] ["u".data]
    ⟨_, List.mem_cons_self _ _, [], rfl⟩

/-- `validName` unfolded to its propositional meaning. -/
theorem validName_iff {n : List Char} :
    validName n = true ↔
      ((endsWithL n "mkv".data = true ∨ endsWithL n "mp4".data = true
          ∨ endsWithL n "avi".data = true)
        ∧ hasSubstr (n.map Char.toLower) "sample".data = false) := by
  simp [validName, Bool.and_eq_true, Bool.or_eq_true, or_assoc]

/-- Membership characterization of the traversal's `update_file` calls: an
entry is processed iff it is listed somewhere in the recursion and its name
passes the `validName` filter. -/
theorem mem_traverseCalls {x : List Char × List Char} :
    ∀ d es, x ∈ traverseCalls d es ↔ x ∈ listedEntries d es ∧ validName x.2 = true := by
  intro d es
  induction d, es using traverseCalls.induct with
  | case1 d => simp [traverseCalls, listedEntries]
  | case2 d e rest ihsub ihtail =>
    cases e with
    | file nm =>
      clear ihsub
      simp only [traverseCalls, listedEntries, DirTree.nameOf, List.nil_append]
      by_cases hv : validName nm = true
      · rw [if_pos hv]
        simp only [List.mem_append, List.mem_cons, List.not_mem_nil, or_false, false_or,
          or_assoc, ihtail]
        constructor
        · rintro (rfl | ⟨h1, h2⟩)
          · exact ⟨Or.inl rfl, hv⟩
          · exact ⟨Or.inr h1, h2⟩
        · rintro ⟨rfl | h1, h2⟩
          · exact Or.inl rfl
          · exact Or.inr ⟨h1, h2⟩
      · rw [if_neg hv]
        simp only [List.nil_append, List.mem_append, List.mem_cons, List.not_mem_nil,
          or_false, false_or, or_assoc, ihtail]
        constructor
        · rintro ⟨h1, h2⟩
          exact ⟨Or.inr h1, h2⟩
        · rintro ⟨rfl | h1, h2⟩
          · exact absurd h2 hv
          · exact ⟨h1, h2⟩
    | dir nm sub =>
      have ihsub' : x ∈ traverseCalls (d ++ '/' :: nm) sub ↔
          x ∈ listedEntries (d ++ '/' :: nm) sub ∧ validName x.2 = true := ihsub
      simp only [traverseCalls, listedEntries, DirTree.nameOf]
      by_cases hv : validName nm = true
      · rw [if_pos hv]
        simp only [List.mem_append, List.mem_cons, List.not_mem_nil, or_false, false_or,
          or_assoc, ihtail, ihsub']
        constructor
        · rintro (⟨h1, h2⟩ | rfl | ⟨h1, h2⟩)
          · exact ⟨Or.inl h1, h2⟩
          · exact ⟨Or.inr (Or.inl rfl), hv⟩
          · exact ⟨Or.inr (Or.inr h1), h2⟩
        · rintro ⟨h1 | rfl | h1, h2⟩
          · exact Or.inl ⟨h1, h2⟩
          · exact Or.inr (Or.inl rfl)
          · exact Or.inr (Or.inr ⟨h1, h2⟩)
      · rw [if_neg hv]
        simp only [List.nil_append, List.mem_append, List.mem_cons, List.not_mem_nil,
          or_false, false_or, or_assoc, ihtail, ihsub']
        constructor
        · rintro (⟨h1, h2⟩ | ⟨h1, h2⟩)
          · exact ⟨Or.inl h1, h2⟩
          · exact ⟨Or.inr (Or.inr h1), h2⟩
        · rintro ⟨h1 | rfl | h1, h2⟩
          · exact Or.inl ⟨h1, h2⟩
          · exact absurd h2 hv
          · exact Or.inr ⟨h1, h2⟩

/-- Claim C9 counterexample: the entry `moviemkv` — ending in the letters mkv
without any dot-separated extension — IS passed to per-file processing by the
traversal, because the source filters with `str.endswith('mkv')`. -/
theorem c9_counterexample :
    traverseCalls "root".data [.file "moviemkv".data]
      = [("root".data, "moviemkv".data)] := by
  have hv : validName "moviemkv".data = true := by decide
  simp [traverseCalls, DirTree.nameOf, hv]

/-- Claim C9 (amended): directory traversal recurses into every subdirectory,
and an entry (file or directory name alike, since the source has no `elif`)
reaches per-file processing exactly when it is listed during the recursion,
its name ENDS WITH one of the literal suffixes mkv, mp4, avi (a dot-separated
extension is not required — `moviemkv` qualifies), and its name does not
contain a case-insensitive `sample`. -/
theorem c9_amended_traversal_filter (d : List Char) (es : List DirTree)
    (x : List Char × List Char) :
    x ∈ traverseCalls d es ↔
      x ∈ listedEntries d es
      ∧ ((endsWithL x.2 "mkv".data = true ∨ endsWithL x.2 "mp4".data = true
            ∨ endsWithL x.2 "avi".data = true)
          ∧ hasSubstr (x.2.map Char.toLower) "sample".data = false) := by
  rw [mem_traverseCalls, validName_iff]

/-- Witness for the amended C9: the spec's own end-to-end example directory.
Only `A-(2000).mkv` is processed; the sample clip and the txt file are
skipped. -/
theorem c9_witness :
    ("r".data, "A-(2000).mkv".data) ∈ traverseCalls "r".data
      [.file "A-(2000).mkv".data, .file "sample-trailer.mkv".data, .file "B.txt".data]
    ∧ ("r".data, "sample-trailer.mkv".data) ∉ traverseCalls "r".data
      [.file "A-(2000).mkv".data, .file "sample-trailer.mkv".data, .file "B.txt".data]
    ∧ ("r".data, "B.txt".data) ∉ traverseCalls "r".data
      [.file "A-(2000).mkv".data, .file "sample-trailer.mkv".data, .file "B.txt".data] := by
  refine ⟨(c9_amended_traversal_filter _ _ _).2
    ⟨by simp [listedEntries, DirTree.nameOf], by decide⟩, ?_, ?_⟩
  · intro hmem
    exact absurd ((c9_amended_traversal_filter _ _ _).1 hmem).2.2 (by decide)
  · intro hmem
    rcases ((c9_amended_traversal_filter _ _ _).1 hmem).2.1 with h | h | h <;>
      exact absurd h (by decide)

end MovieCover
